import Mathlib

/-!
# proctime: per-user process quota enforcer

A shallow embedding of `src/proctime/main.go` and theorems about its scan loop,
its loaders and `main`.

* Go `int32` values are carried as `Int`; the one arithmetic operation of the
  program on them (`count.Count++`, line 157) wraps through `wrapInt32`.
* Go maps are lookup functions `String → Option V`; `m[k]` on a missing key
  yields the zero value of `V`, `m[k] = v` is `Function.update`.
* The operating system is not modelled: each process identifier of the
  enumeration comes with the results its inspection calls return (`Proc`),
  and `main` takes the answers of the file system, of the JSON decoder and of
  the clock as its environment (`Env`).
-/

namespace Proctime

/-! ## Data model -/

/-- Two's-complement wrap of an integer into the range of Go's `int32`. -/
def wrapInt32 (x : Int) : Int :=
  (x + 2147483648) % 4294967296 - 2147483648

/-- Membership in the range of Go's `int32`. -/
def isInt32 (x : Int) : Prop :=
  -2147483648 ≤ x ∧ x ≤ 2147483647

instance (x : Int) : Decidable (isInt32 x) := by
  unfold isInt32; infer_instance

/-- The struct `userLimits` (lines 23-26): a limit and a set of executable paths. -/
structure userLimits where
  limit : Int
  processes : Finset String
  deriving DecidableEq

/-- The type `config` (line 28): `map[string]userLimits`. -/
abbrev config := String → Option userLimits

/-- The struct `stats` (lines 57-60). -/
structure stats where
  Day : Int
  Count : Int
  deriving DecidableEq, Repr

/-- The type `counts` (line 66): `map[string]stats`. -/
abbrev counts := String → Option stats

/-- Go's `m[k]` on a `map[string]stats`: the zero value when the key is missing. -/
def counts.index (m : counts) (k : String) : stats :=
  match m k with
  | some s => s
  | none => { Day := 0, Count := 0 }

/-- What the process source answers for one process identifier of the
enumeration: whether `process.NewProcess` fails, and the result of each
accessor (`none` is a returned error). `killErr` is the error result of
`proc.Kill()`. -/
structure Proc where
  pid : Int
  newProcessErr : Bool
  username : Option String
  exe : Option String
  name : Option String
  cmdline : Option String
  killErr : Bool
  deriving DecidableEq

/-- A line written to standard output by the scan loop. -/
inductive Notice where
  /-- The line of `fmt.Println(exe, name, cmdline)` (line 146). -/
  | matched (exe name cmdline : String)
  /-- The line of `fmt.Println(exe, "killed, quota exceeded")` (line 162). -/
  | killed (exe : String)
  deriving DecidableEq

/-- The text of a notice, as `fmt.Println` writes its operands. -/
def Notice.render : Notice → String
  | .matched exe name cmdline => exe ++ " " ++ name ++ " " ++ cmdline ++ "\n"
  | .killed exe => exe ++ " " ++ "killed, quota exceeded" ++ "\n"

/-- The variables the loop of `main` (lines 117-164) reads and writes:
the ledger `counts`, the set `flaggedUsers`, the processes on which `Kill`
was called and the lines printed, both in order. -/
structure ScanState where
  counts : counts
  flaggedUsers : Finset String
  kills : List Proc
  out : List Notice

/-! ## The scan loop -/

/-- Lines 153-158: reset on a new day, increment otherwise. -/
def bump (now : Int) (count : stats) : stats :=
  if now > count.Day then { Day := now, Count := 1 }
  else { Day := count.Day, Count := wrapInt32 (count.Count + 1) }

/-- One iteration of the loop of `main` (lines 118-163). -/
def loopBody (conf : config) (now : Int) (st : ScanState) (proc : Proc) : ScanState :=
  if proc.newProcessErr then st else
  match proc.username with
  | none => st
  | some procUser =>
  match conf procUser with
  | none => st
  | some limit =>
  match proc.exe with
  | none => st
  | some exe =>
  match proc.name with
  | none => st
  | some name =>
  match proc.cmdline with
  | none => st
  | some cmdline =>
  if exe ∉ limit.processes then st else
  let out := st.out ++ [Notice.matched exe name cmdline]
  if procUser ∈ st.flaggedUsers then { st with out := out } else
  let flaggedUsers := insert procUser st.flaggedUsers
  let count := bump now (st.counts.index procUser)
  let counts := Function.update st.counts procUser (some count)
  if count.Count > limit.limit then
    -- the error result of `proc.Kill()` (`proc.killErr`) is discarded
    { counts := counts, flaggedUsers := flaggedUsers,
      kills := st.kills ++ [proc], out := out ++ [Notice.killed exe] }
  else
    { counts := counts, flaggedUsers := flaggedUsers, kills := st.kills, out := out }

/-- The state at line 115, before the loop. -/
def initState (cnt : counts) : ScanState :=
  { counts := cnt, flaggedUsers := ∅, kills := [], out := [] }

/-- The loop of `main` (lines 115-164) over the enumerated processes. -/
def scan (conf : config) (cnt : counts) (now : Int) (pids : List Proc) : ScanState :=
  pids.foldl (loopBody conf now) (initState cnt)

/-! ## Vocabulary of the specification -/

/-- The observation has all fields obtained, is owned by `u`, `u` is
configured and the executable path is in the allowed set of `u`. -/
def matchesUser (conf : config) (u : String) (p : Proc) : Bool :=
  !p.newProcessErr && p.username == some u && p.name.isSome && p.cmdline.isSome &&
  match conf u, p.exe with
  | some limit, some exe => decide (exe ∈ limit.processes)
  | _, _ => false

/-- The first observation of the enumeration that matches for `u`. -/
def firstMatch (conf : config) (u : String) (pids : List Proc) : Option Proc :=
  pids.find? (matchesUser conf u)

/-- The processes owned by `u` among those on which `Kill` was called. -/
def killsOf (u : String) (st : ScanState) : List Proc :=
  st.kills.filter (fun p => p.username == some u)

/-- The operands of the "matched" line an observation produces, if it produces one. -/
def matchedTriple (conf : config) (p : Proc) : Option (String × String × String) :=
  if p.newProcessErr then none else
  match p.username, p.exe, p.name, p.cmdline with
  | some u, some exe, some name, some cmdline =>
    match conf u with
    | some limit => if exe ∈ limit.processes then some (exe, name, cmdline) else none
    | none => none
  | _, _, _, _ => none

/-- The operands of the "matched" lines of an output, in order. -/
def matchedNotices (out : List Notice) : List (String × String × String) :=
  out.filterMap fun
    | .matched exe name cmdline => some (exe, name, cmdline)
    | .killed _ => none

/-- What one user sees of a state: the ledger entry, whether the user is
flagged, and the kills of processes of that user. -/
def view (u : String) (st : ScanState) : Option stats × Bool × List Proc :=
  (st.counts u, decide (u ∈ st.flaggedUsers), killsOf u st)

/-- Some inspection of the process fails: the process handle, the owning
user, the executable path, the name or the command line. -/
def inspectionFails (p : Proc) : Bool :=
  p.newProcessErr || p.username.isNone || p.exe.isNone || p.name.isNone || p.cmdline.isNone

/-- The observation with the result of `proc.Kill()` replaced by `b`. -/
def Proc.withKillErr (p : Proc) (b : Bool) : Proc :=
  { p with killErr := b }

/-- Two enumerations that differ at most in the results of `proc.Kill()`. -/
def sameButKill (pids pids' : List Proc) : Prop :=
  pids.map (fun p => p.withKillErr false) = pids'.map (fun p => p.withKillErr false)

/-- The operand of the "killed" lines of an output, in order. -/
def killedNotices (out : List Notice) : List String :=
  out.filterMap fun
    | .matched _ _ _ => none
    | .killed exe => some exe

/-- The state with the results of `proc.Kill()` forgotten. -/
def ScanState.eraseKill (st : ScanState) : ScanState :=
  { st with kills := st.kills.map (fun p => p.withKillErr false) }

/-! ## Loading the configuration and the ledger -/

/-- The struct `userLimitsCfg` (lines 18-21), the decoded form of one user. -/
structure userLimitsCfg where
  Limit : Int
  Processes : List String

/-- What `os.Open` answers for a path: a file, whose `io.ReadAll` gives the
content or fails (`none`); an error that is `os.ErrNotExist`; another error. -/
inductive OpenResult where
  | file (readAll : Option String)
  | errNotExist
  | errOther

/-- The non-nil errors `readConf` and `readCounts` return, by the call they come from. -/
inductive LoadErr where
  | openErr
  | readErr
  | unmarshalErr
  deriving DecidableEq

/-- Lines 47-51: the limits of one user, the paths of `procs` put one by one
into a set. -/
def convertUser (value : userLimitsCfg) : userLimits :=
  { limit := value.Limit,
    processes := value.Processes.foldl (fun processes name => insert name processes) ∅ }

/-- Lines 47-52: one iteration of the loop over the decoded map, for the
entry `key, value`. -/
def convertStep (conf : config) (kv : String × userLimitsCfg) : config :=
  Function.update conf kv.1 (some (convertUser kv.2))

/-- Lines 45-53: the loop over the decoded map `fileConf`, given by its
entries in the order the `range` visits them. -/
def convertConf (fileConf : List (String × userLimitsCfg)) : config :=
  fileConf.foldl convertStep (fun _ => none)

/-- The function `readConf` (lines 30-55). `fs` answers `os.Open`, `unmarshal`
is `json.Unmarshal` into a `map[string]userLimitsCfg` (`none` is an error).
The result is the pair (map, error) of Go, `none` standing for `nil`. -/
def readConf (unmarshal : String → Option (List (String × userLimitsCfg)))
    (fs : String → OpenResult) (confFile : String) : Option config × Option LoadErr :=
  match fs confFile with
  | .errNotExist => (none, some .openErr)
  | .errOther => (none, some .openErr)
  | .file none => (none, some .readErr)
  | .file (some buffer) =>
    match unmarshal buffer with
    | none => (none, some .unmarshalErr)
    | some fileConf => (some (convertConf fileConf), none)

/-- The function `readCounts` (lines 68-90). `fs` answers `os.Open`,
`unmarshal` is `json.Unmarshal` into a `counts` (`none` is an error,
`some none` a success that leaves the map `nil`). The result is the pair
(map, error) of Go, `none` standing for `nil`. -/
def readCounts (unmarshal : String → Option (Option counts))
    (fs : String → OpenResult) (countFile : String) : Option counts × Option LoadErr :=
  match fs countFile with
  | .errNotExist => (some (fun _ => none), none)
  | .errOther => (none, some .openErr)
  | .file none => (none, some .readErr)
  | .file (some buffer) =>
    match unmarshal buffer with
    | none => (none, some .unmarshalErr)
    | some none => (some (fun _ => none), none)
    | some (some appCounts) => (some appCounts, none)

/-- Two decoded configurations with the same users in the same order and
the same limits, whose `procs` lists hold the same paths, possibly repeated
or in another order. -/
def sameProcsSets (fileConf fileConf' : List (String × userLimitsCfg)) : Prop :=
  List.Forall₂ (fun a b => a.1 = b.1 ∧ a.2.Limit = b.2.Limit ∧
    ∀ path, path ∈ a.2.Processes ↔ path ∈ b.2.Processes) fileConf fileConf'

/-! ## The day index -/

/-- Membership in the range of Go's `int64`, the type of `time.Duration`. -/
def isInt64 (x : Int) : Prop :=
  -9223372036854775808 ≤ x ∧ x ≤ 9223372036854775807

instance (x : Int) : Decidable (isInt64 x) := by
  unfold isInt64; infer_instance

/-- The constant `time.Hour`, in nanoseconds. -/
def hour : Int := 3600000000000

/-- Line 116: `int32(d / time.Hour / 24)` for the duration `d` since the
epoch; Go's integer division truncates toward zero. -/
def dayIndex (d : Int) : Int :=
  wrapInt32 (Int.tdiv (Int.tdiv d hour) 24)

/-! ## The program -/

/-- The answers of the environment to the calls of `main`: the process
enumeration (`none` is an error), the file system and the JSON decoder, the
duration since the epoch at line 116, and whether `os.Create` fails. -/
structure Env where
  pids : Option (List Proc)
  fs : String → OpenResult
  unmarshalConf : String → Option (List (String × userLimitsCfg))
  unmarshalCounts : String → Option (Option counts)
  sinceEpoch : Int
  createErr : Bool

/-- A line written to standard output by `main`. -/
inductive Line where
  /-- Line 102. -/
  | fetchFailed
  /-- Line 107. -/
  | confFailed
  /-- Line 112. -/
  | countsFailed
  /-- Line 168. -/
  | createFailed
  /-- Lines 146 and 162. -/
  | notice (n : Notice)
  deriving DecidableEq

/-- A call of `main` that can change the counters resource. -/
inductive CountsFileOp where
  /-- The call `os.Create(countFile)` (line 165) and whether it fails. -/
  | create (err : Bool)
  /-- The call `encoder.Encode(counts)` (line 172). -/
  | encode (c : counts)

/-- What a run of `main` does: the processes on which `Kill` is called, the
lines printed and the calls that can change the counters resource, each in order. -/
structure Run where
  kills : List Proc
  out : List Line
  fileOps : List CountsFileOp

/-- The function `main` (lines 92-173). A `nil` map returned without an error
reads as the empty map. -/
def main (env : Env) (confFile countFile : String) : Run :=
  match env.pids with
  | none => { kills := [], out := [Line.fetchFailed], fileOps := [] }
  | some pids =>
  match readConf env.unmarshalConf env.fs confFile with
  | (_, some _) => { kills := [], out := [Line.confFailed], fileOps := [] }
  | (conf, none) =>
  match readCounts env.unmarshalCounts env.fs countFile with
  | (_, some _) => { kills := [], out := [Line.countsFailed], fileOps := [] }
  | (counts, none) =>
  let st := scan (conf.getD (fun _ => none)) (counts.getD (fun _ => none))
    (dayIndex env.sinceEpoch) pids
  if env.createErr then
    { kills := st.kills, out := st.out.map Line.notice ++ [Line.createFailed],
      fileOps := [CountsFileOp.create true] }
  else
    { kills := st.kills, out := st.out.map Line.notice,
      fileOps := [CountsFileOp.create false, CountsFileOp.encode st.counts] }

/-! ## Concrete data of the examples of the specification -/

/-- The configuration `{"alice": {"limit": 2, "procs": ["/usr/bin/x"]}}`. -/
def exConf : config := fun u =>
  if u = "alice" then some { limit := 2, processes := {"/usr/bin/x"} } else none

/-- A live process of `user` running `exe`, every inspection succeeding. -/
def exProcOf (user exe : String) (pid : Int) : Proc :=
  { pid := pid, newProcessErr := false, username := some user, exe := some exe,
    name := some "x", cmdline := some "/usr/bin/x -v", killErr := false }

/-- A live process of `alice` running `/usr/bin/x`. -/
def exProc (pid : Int) : Proc :=
  exProcOf "alice" "/usr/bin/x" pid

/-- The configuration `{"alice": {"limit": 0, "procs": ["/usr/bin/x"]}}`. -/
def exConfZero : config := fun u =>
  if u = "alice" then some { limit := 0, processes := {"/usr/bin/x"} } else none

/-- A ledger with one entry, for `alice`. -/
def exCounts (day count : Int) : counts := fun u =>
  if u = "alice" then some { Day := day, Count := count } else none

/-- The empty ledger. -/
def emptyCounts : counts := fun _ => none

/-- The decoded configuration `{"alice": {"limit": 2, "procs": ["/usr/bin/x",
"/usr/bin/y", "/usr/bin/x"]}}`, with a repeated path. -/
def exFileConf : List (String × userLimitsCfg) :=
  [("alice", { Limit := 2, Processes := ["/usr/bin/x", "/usr/bin/y", "/usr/bin/x"] })]

/-! ## One iteration, seen from one user -/

/-- An observation that produces no "matched" line leaves the state untouched. -/
theorem loopBody_skip (conf : config) (now : Int) (st : ScanState) (p : Proc)
    (h : matchedTriple conf p = none) : loopBody conf now st p = st := by
  unfold matchedTriple at h
  unfold loopBody
  cases hn : p.newProcessErr <;> simp only [hn] at h ⊢ <;> try rfl
  cases hu : p.username <;> simp only [hu] at h ⊢ <;> try rfl
  rename_i v
  cases hc : conf v <;> simp only [hc] at h ⊢ <;> try rfl
  cases he : p.exe <;> simp only [he] at h ⊢ <;> try rfl
  cases hm : p.name <;> simp only [hm] at h ⊢ <;> try rfl
  cases hl : p.cmdline <;> simp only [hl] at h ⊢ <;> try rfl
  simp_all

/-- The shape of an iteration that is not skipped. -/
theorem loopBody_matched (conf : config) (now : Int) (st : ScanState) (p : Proc)
    (v exe name cmdline : String) (limit : userLimits)
    (hn : p.newProcessErr = false) (hu : p.username = some v) (hc : conf v = some limit)
    (he : p.exe = some exe) (hm : p.name = some name) (hl : p.cmdline = some cmdline)
    (hx : exe ∈ limit.processes) :
    loopBody conf now st p =
      if v ∈ st.flaggedUsers then { st with out := st.out ++ [Notice.matched exe name cmdline] }
      else if (bump now (st.counts.index v)).Count > limit.limit then
        { counts := Function.update st.counts v (some (bump now (st.counts.index v))),
          flaggedUsers := insert v st.flaggedUsers,
          kills := st.kills ++ [p],
          out := st.out ++ [Notice.matched exe name cmdline] ++ [Notice.killed exe] }
      else
        { counts := Function.update st.counts v (some (bump now (st.counts.index v))),
          flaggedUsers := insert v st.flaggedUsers,
          kills := st.kills,
          out := st.out ++ [Notice.matched exe name cmdline] } := by
  unfold loopBody
  simp [hn, hu, hc, he, hm, hl, hx]

/-- Every observation is either skipped or has all the data of a match. -/
theorem skip_or_matched (conf : config) (p : Proc) :
    matchedTriple conf p = none ∨
    ∃ v exe name cmdline limit, p.newProcessErr = false ∧ p.username = some v ∧
      conf v = some limit ∧ p.exe = some exe ∧ p.name = some name ∧
      p.cmdline = some cmdline ∧ exe ∈ limit.processes ∧
      matchedTriple conf p = some (exe, name, cmdline) := by
  unfold matchedTriple
  cases hn : p.newProcessErr <;> simp only [hn] <;> try (left; rfl)
  cases hu : p.username <;> try (left; rfl)
  rename_i v
  cases he : p.exe <;> try (left; rfl)
  cases hm : p.name <;> try (left; rfl)
  cases hl : p.cmdline <;> try (left; rfl)
  rename_i exe name cmdline
  cases hc : conf v with
  | none => left; simp [hc]
  | some limit =>
    by_cases hx : exe ∈ limit.processes
    · right
      refine ⟨v, exe, name, cmdline, limit, ?_, ?_, ?_, ?_, ?_, ?_, ?_, ?_⟩ <;> simp [hc, hx]
    · left; simp [hc, hx]

/-- The data of a match for `u` gives `matchesUser`. -/
theorem matchesUser_of_data (conf : config) (p : Proc) (u exe name cmdline : String)
    (limit : userLimits) (hn : p.newProcessErr = false) (hu : p.username = some u)
    (hc : conf u = some limit) (he : p.exe = some exe) (hm : p.name = some name)
    (hl : p.cmdline = some cmdline) (hx : exe ∈ limit.processes) :
    matchesUser conf u p = true := by
  unfold matchesUser
  simp [hn, hu, hc, he, hm, hl, hx]

/-- The function `matchesUser` gives the data of a match. -/
theorem data_of_matchesUser (conf : config) (p : Proc) (u : String)
    (h : matchesUser conf u p = true) :
    ∃ exe name cmdline limit, p.newProcessErr = false ∧ p.username = some u ∧
      conf u = some limit ∧ p.exe = some exe ∧ p.name = some name ∧
      p.cmdline = some cmdline ∧ exe ∈ limit.processes := by
  unfold matchesUser at h
  cases hc : conf u <;> cases he : p.exe <;> simp [hc, he] at h
  rename_i limit exe
  obtain ⟨⟨⟨⟨hn, hu⟩, hm⟩, hl⟩, hx⟩ := h
  obtain ⟨name, hm⟩ := Option.isSome_iff_exists.mp hm
  obtain ⟨cmdline, hl⟩ := Option.isSome_iff_exists.mp hl
  exact ⟨exe, name, cmdline, limit, hn, hu, rfl, rfl, hm, hl, hx⟩

/-- An observation that does not match for `u` changes nothing `u` sees. -/
theorem view_loopBody_other (conf : config) (now : Int) (u : String) (st : ScanState)
    (p : Proc) (h : matchesUser conf u p = false) :
    view u (loopBody conf now st p) = view u st := by
  rcases skip_or_matched conf p with hs | ⟨v, exe, name, cmdline, limit, hn, hu, hc, he, hm, hl, hx, -⟩
  · rw [loopBody_skip conf now st p hs]
  · have hvu : v ≠ u := by
      rintro rfl
      rw [matchesUser_of_data conf p v exe name cmdline limit hn hu hc he hm hl hx] at h
      exact Bool.noConfusion h
    have huv : u ≠ v := fun e => hvu e.symm
    rw [loopBody_matched conf now st p v exe name cmdline limit hn hu hc he hm hl hx]
    split_ifs <;>
      simp [view, killsOf, Function.update_noteq huv, Finset.mem_insert, huv, hu, hvu,
        List.filter_append]

/-- Once `u` is flagged, no observation changes what `u` sees. -/
theorem view_loopBody_flagged (conf : config) (now : Int) (u : String) (st : ScanState)
    (p : Proc) (h : u ∈ st.flaggedUsers) :
    view u (loopBody conf now st p) = view u st := by
  cases hm : matchesUser conf u p with
  | false => exact view_loopBody_other conf now u st p hm
  | true =>
    obtain ⟨exe, name, cmdline, limit, hn, hu, hc, he, hm, hl, hx⟩ :=
      data_of_matchesUser conf p u hm
    rw [loopBody_matched conf now st p u exe name cmdline limit hn hu hc he hm hl hx, if_pos h]
    rfl

/-- The first matching observation of an unflagged user: one update of the
entry, the flag, and the kill when the updated count exceeds the limit. -/
theorem view_loopBody_first (conf : config) (now : Int) (u : String) (limit : userLimits)
    (st : ScanState) (p : Proc) (hc : conf u = some limit)
    (hm : matchesUser conf u p = true) (hf : u ∉ st.flaggedUsers) :
    view u (loopBody conf now st p) =
      (some (bump now (st.counts.index u)), true,
        killsOf u st ++
          if (bump now (st.counts.index u)).Count > limit.limit then [p] else []) := by
  obtain ⟨exe, name, cmdline, limit', hn, hu, hc', he, hm, hl, hx⟩ :=
    data_of_matchesUser conf p u hm
  have hl' : limit' = limit := by rw [hc] at hc'; exact (Option.some.inj hc').symm
  subst hl'
  rw [loopBody_matched conf now st p u exe name cmdline limit' hn hu hc he hm hl hx, if_neg hf]
  split_ifs <;> simp [view, killsOf, List.filter_append, hu]

/-! ## The whole loop, seen from one user -/

/-- A flagged user sees nothing change for the rest of the loop. -/
theorem view_foldl_flagged (conf : config) (now : Int) (u : String) (pids : List Proc) :
    ∀ st : ScanState, u ∈ st.flaggedUsers →
      view u (pids.foldl (loopBody conf now) st) = view u st := by
  induction pids with
  | nil => intro st _; rfl
  | cons p ps ih =>
    intro st h
    have h1 := view_loopBody_flagged conf now u st p h
    have h2 : u ∈ (loopBody conf now st p).flaggedUsers := by
      have := congrArg (fun v => v.2.1) h1
      simpa [view, h] using this
    rw [List.foldl_cons, ih _ h2, h1]

/-- A user none of whose observations matches sees nothing change. -/
theorem view_foldl_noMatch (conf : config) (now : Int) (u : String) (pids : List Proc) :
    ∀ st : ScanState, (∀ p ∈ pids, matchesUser conf u p = false) →
      view u (pids.foldl (loopBody conf now) st) = view u st := by
  induction pids with
  | nil => intro st _; rfl
  | cons p ps ih =>
    intro st h
    rw [List.foldl_cons, ih _ (fun q hq => h q (List.mem_cons_of_mem p hq)),
      view_loopBody_other conf now u st p (h p (List.mem_cons_self p ps))]

/-- An unflagged user with a matching observation sees exactly one update,
decided at the first matching observation. -/
theorem view_foldl_first (conf : config) (now : Int) (u : String) (limit : userLimits)
    (hc : conf u = some limit) (pids : List Proc) :
    ∀ (st : ScanState) (p : Proc), u ∉ st.flaggedUsers → firstMatch conf u pids = some p →
      view u (pids.foldl (loopBody conf now) st) =
        (some (bump now (st.counts.index u)), true,
          killsOf u st ++
            if (bump now (st.counts.index u)).Count > limit.limit then [p] else []) := by
  induction pids with
  | nil => intro st p _ h; simp [firstMatch] at h
  | cons q qs ih =>
    intro st p hf h
    unfold firstMatch at h
    rw [List.find?_cons] at h
    cases hq : matchesUser conf u q with
    | true =>
      rw [hq] at h
      have hpq : q = p := Option.some.inj h
      subst hpq
      have h1 := view_loopBody_first conf now u limit st q hc hq hf
      have h2 : u ∈ (loopBody conf now st q).flaggedUsers := by
        have := congrArg (fun v => v.2.1) h1
        simpa [view] using this
      rw [List.foldl_cons, view_foldl_flagged conf now u qs _ h2, h1]
    | false =>
      rw [hq] at h
      have h1 := view_loopBody_other conf now u st q hq
      have h2 : u ∉ (loopBody conf now st q).flaggedUsers := by
        have := congrArg (fun v => v.2.1) h1
        simpa [view, hf] using this
      have h3 : (loopBody conf now st q).counts.index u = st.counts.index u := by
        have := congrArg (fun v => v.1) h1
        simp only [view] at this
        simp [counts.index, this]
      have h4 : killsOf u (loopBody conf now st q) = killsOf u st := by
        have := congrArg (fun v => v.2.2) h1
        simpa [view] using this
      rw [List.foldl_cons, ih _ p h2 h, h3, h4]

/-- A matching observation in the enumeration gives a first one. -/
theorem firstMatch_of_exists (conf : config) (u : String) (pids : List Proc)
    (h : ∃ p ∈ pids, matchesUser conf u p = true) :
    ∃ p, firstMatch conf u pids = some p := by
  obtain ⟨q, hq, hm⟩ := h
  cases hf : firstMatch conf u pids with
  | some p => exact ⟨p, rfl⟩
  | none =>
    unfold firstMatch at hf
    rw [List.find?_eq_none] at hf
    exact absurd hm (hf q hq)

/-- The first matching observation is in the enumeration and matches. -/
theorem firstMatch_spec (conf : config) (u : String) (pids : List Proc) (p : Proc)
    (h : firstMatch conf u pids = some p) : p ∈ pids ∧ matchesUser conf u p = true := by
  unfold firstMatch at h
  exact ⟨List.mem_of_find?_eq_some h, by simpa using List.find?_some h⟩

/-- Nothing is flagged and nothing is killed before the loop. -/
theorem view_initState (u : String) (cnt : counts) :
    view u (initState cnt) = (cnt u, false, []) := by
  simp [view, initState, killsOf]

/-- The scan, seen from a user with a matching observation. -/
theorem view_scan_first (conf : config) (cnt : counts) (now : Int) (pids : List Proc)
    (u : String) (limit : userLimits) (p : Proc) (hc : conf u = some limit)
    (hf : firstMatch conf u pids = some p) :
    view u (scan conf cnt now pids) =
      (some (bump now (cnt.index u)), true,
        if (bump now (cnt.index u)).Count > limit.limit then [p] else []) := by
  have h := view_foldl_first conf now u limit hc pids (initState cnt) p
    (by simp [initState]) hf
  unfold scan
  rw [h]
  simp [initState, killsOf, counts.index]

/-- The scan, seen from a user without a matching observation. -/
theorem view_scan_noMatch (conf : config) (cnt : counts) (now : Int) (pids : List Proc)
    (u : String) (h : ∀ p ∈ pids, matchesUser conf u p = false) :
    view u (scan conf cnt now pids) = (cnt u, false, []) := by
  unfold scan
  rw [view_foldl_noMatch conf now u pids _ h, view_initState]

/-- A kill of a process of `u` is a member of `killsOf u`. -/
theorem mem_killsOf (u : String) (st : ScanState) (p : Proc) :
    p ∈ killsOf u st ↔ p ∈ st.kills ∧ p.username = some u := by
  simp [killsOf, List.mem_filter]

/-! ## Output -/

/-- One iteration adds the "matched" line of its observation, if any. -/
theorem matchedNotices_loopBody (conf : config) (now : Int) (st : ScanState) (p : Proc) :
    matchedNotices (loopBody conf now st p).out =
      matchedNotices st.out ++ (matchedTriple conf p).toList := by
  rcases skip_or_matched conf p with hs | ⟨v, exe, name, cmdline, limit, hn, hu, hc, he, hm, hl, hx, ht⟩
  · rw [loopBody_skip conf now st p hs, hs]; simp
  · rw [loopBody_matched conf now st p v exe name cmdline limit hn hu hc he hm hl hx, ht]
    split_ifs <;> simp [matchedNotices, List.filterMap_append]

/-- The loop adds the "matched" lines of its observations, in order. -/
theorem matchedNotices_foldl (conf : config) (now : Int) (pids : List Proc) :
    ∀ st : ScanState, matchedNotices (pids.foldl (loopBody conf now) st).out =
      matchedNotices st.out ++ pids.filterMap (matchedTriple conf) := by
  induction pids with
  | nil => intro st; simp
  | cons p ps ih =>
    intro st
    rw [List.foldl_cons, ih, matchedNotices_loopBody, List.append_assoc]
    congr 1
    cases h : matchedTriple conf p <;> simp [List.filterMap_cons, h]

/-- The "matched" lines of a scan, from the empty output. -/
theorem matched_notices_all (conf : config) (cnt : counts) (now : Int) (pids : List Proc) :
    matchedNotices (scan conf cnt now pids).out = pids.filterMap (matchedTriple conf) := by
  unfold scan
  rw [matchedNotices_foldl]
  simp [initState, matchedNotices]

/-- Observations that are skipped can be removed from the enumeration. -/
theorem foldl_filter_skip (conf : config) (now : Int) (keep : Proc → Bool) (pids : List Proc) :
    ∀ st : ScanState, (∀ p ∈ pids, keep p = false → matchedTriple conf p = none) →
      (pids.filter keep).foldl (loopBody conf now) st = pids.foldl (loopBody conf now) st := by
  induction pids with
  | nil => intro st _; rfl
  | cons p ps ih =>
    intro st h
    have hps := fun q hq => h q (List.mem_cons_of_mem p hq)
    cases hk : keep p with
    | true => rw [List.filter_cons_of_pos hk, List.foldl_cons, List.foldl_cons, ih _ hps]
    | false =>
      rw [List.filter_cons_of_neg (by simp [hk]), List.foldl_cons,
        loopBody_skip conf now st p (h p (List.mem_cons_self p ps) hk), ih _ hps]

/-! ## Claims -/

/-- C1: for a user `u` that owns at least one matching observation, the entry
of `u` after the scan is the prior entry updated once, and a termination is
requested for a process of `u` if and only if the count of that updated
entry is strictly greater than the limit of `u`. -/
theorem termination_iff_count_gt_limit (conf : config) (cnt : counts) (now : Int)
    (pids : List Proc) (u : String) (limit : userLimits) (hc : conf u = some limit)
    (hm : ∃ p ∈ pids, matchesUser conf u p = true) :
    ∃ c, (scan conf cnt now pids).counts u = some c ∧ c = bump now (cnt.index u) ∧
      ((∃ p ∈ (scan conf cnt now pids).kills, p.username = some u) ↔ c.Count > limit.limit) := by
  obtain ⟨p, hp⟩ := firstMatch_of_exists conf u pids hm
  have hv := view_scan_first conf cnt now pids u limit p hc hp
  have h1 : (scan conf cnt now pids).counts u = some (bump now (cnt.index u)) :=
    congrArg (fun v => v.1) hv
  have h2 : killsOf u (scan conf cnt now pids) =
      if (bump now (cnt.index u)).Count > limit.limit then [p] else [] :=
    congrArg (fun v => v.2.2) hv
  refine ⟨_, h1, rfl, ?_⟩
  constructor
  · rintro ⟨q, hq, hu⟩
    have hq' : q ∈ killsOf u (scan conf cnt now pids) := (mem_killsOf u _ q).mpr ⟨hq, hu⟩
    rw [h2] at hq'
    by_contra hn
    rw [if_neg hn] at hq'
    exact absurd hq' (List.not_mem_nil q)
  · intro hgt
    have hp' : p ∈ killsOf u (scan conf cnt now pids) := by
      rw [h2, if_pos hgt]; exact List.mem_singleton_self p
    obtain ⟨hk, hu⟩ := (mem_killsOf u _ p).mp hp'
    exact ⟨p, hk, hu⟩

/-- The example of the specification with prior count 2 and limit 2: the
count becomes 3 and the process is killed. -/
theorem termination_iff_count_gt_limit_witness :
    exConf "alice" = some { limit := 2, processes := {"/usr/bin/x"} } ∧
    (∃ p ∈ [exProc 1], matchesUser exConf "alice" p = true) ∧
    ∃ c, (scan exConf (exCounts 100 2) 100 [exProc 1]).counts "alice" = some c ∧
      c = bump 100 ((exCounts 100 2).index "alice") ∧
      ((∃ p ∈ (scan exConf (exCounts 100 2) 100 [exProc 1]).kills, p.username = some "alice") ↔
        c.Count > (2 : Int)) :=
  ⟨by decide, ⟨exProc 1, by simp, by decide⟩,
    termination_iff_count_gt_limit exConf (exCounts 100 2) 100 [exProc 1] "alice"
      { limit := 2, processes := {"/usr/bin/x"} } (by decide) ⟨exProc 1, by simp, by decide⟩⟩

/-- C2: day rollover. For a user `u` with a matching observation whose stored
day is strictly less than today, the updated entry is `{day: today, count: 1}`
whatever the prior count. -/
theorem day_rollover (conf : config) (cnt : counts) (now : Int) (pids : List Proc)
    (u : String) (c : stats) (hm : ∃ p ∈ pids, matchesUser conf u p = true)
    (hs : cnt u = some c) (hd : c.Day < now) :
    (scan conf cnt now pids).counts u = some { Day := now, Count := 1 } := by
  obtain ⟨p, hp⟩ := firstMatch_of_exists conf u pids hm
  obtain ⟨_, _, _, limit, _, _, hc, _⟩ :=
    data_of_matchesUser conf p u (firstMatch_spec conf u pids p hp).2
  have hv := view_scan_first conf cnt now pids u limit p hc hp
  have h1 : (scan conf cnt now pids).counts u = some (bump now (cnt.index u)) :=
    congrArg (fun v => v.1) hv
  rw [h1]
  simp [bump, counts.index, hs, hd]

/-- The example of the specification with a stale entry `{day: 99, count: 50}`. -/
theorem day_rollover_witness :
    (∃ p ∈ [exProc 1], matchesUser exConf "alice" p = true) ∧
    exCounts 99 50 "alice" = some { Day := 99, Count := 50 } ∧ (99 : Int) < 100 ∧
    (scan exConf (exCounts 99 50) 100 [exProc 1]).counts "alice"
      = some { Day := 100, Count := 1 } :=
  ⟨⟨exProc 1, by simp, by decide⟩, by decide, by decide,
    day_rollover exConf (exCounts 99 50) 100 [exProc 1] "alice" { Day := 99, Count := 50 }
      ⟨exProc 1, by simp, by decide⟩ (by decide) (by decide)⟩

/-- C3: a user `u` that owns at least one matching observation has a first
one, and the updated entry of `u` is the prior entry with the
reset-or-increment step applied exactly once: the entry of the scan that
contains only that first matching observation. -/
theorem counter_mutated_once (conf : config) (cnt : counts) (now : Int) (pids : List Proc)
    (u : String) (hm : ∃ p ∈ pids, matchesUser conf u p = true) :
    ∃ p, firstMatch conf u pids = some p ∧
      (scan conf cnt now pids).counts u = some (bump now (cnt.index u)) ∧
      (scan conf cnt now pids).counts u = (scan conf cnt now [p]).counts u := by
  obtain ⟨p, hp⟩ := firstMatch_of_exists conf u pids hm
  have hpm := (firstMatch_spec conf u pids p hp).2
  obtain ⟨_, _, _, limit, _, _, hc, _⟩ := data_of_matchesUser conf p u hpm
  have h1 : (scan conf cnt now pids).counts u = some (bump now (cnt.index u)) :=
    congrArg (fun v => v.1) (view_scan_first conf cnt now pids u limit p hc hp)
  have hp1 : firstMatch conf u [p] = some p := by simp [firstMatch, hpm]
  have h2 : (scan conf cnt now [p]).counts u = some (bump now (cnt.index u)) :=
    congrArg (fun v => v.1) (view_scan_first conf cnt now [p] u limit p hc hp1)
  exact ⟨p, hp, h1, h1.trans h2.symm⟩

/-- The example of the specification with two matching processes of `alice`
and an empty ledger: one update, to `{day: 100, count: 1}`. -/
theorem counter_mutated_once_witness :
    (∃ p ∈ [exProc 1, exProc 2], matchesUser exConf "alice" p = true) ∧
    ∃ p, firstMatch exConf "alice" [exProc 1, exProc 2] = some p ∧
      (scan exConf emptyCounts 100 [exProc 1, exProc 2]).counts "alice"
        = some (bump 100 (emptyCounts.index "alice")) ∧
      (scan exConf emptyCounts 100 [exProc 1, exProc 2]).counts "alice"
        = (scan exConf emptyCounts 100 [p]).counts "alice" :=
  ⟨⟨exProc 1, by simp, by decide⟩,
    counter_mutated_once exConf emptyCounts 100 [exProc 1, exProc 2] "alice"
      ⟨exProc 1, by simp, by decide⟩⟩

/-- No observation matches for a user that is not configured. -/
theorem matchesUser_unconfigured (conf : config) (u : String) (p : Proc) (hc : conf u = none) :
    matchesUser conf u p = false := by
  unfold matchesUser
  simp [hc]

/-- An observation owned by `u` that does not match for `u` is skipped. -/
theorem matchedTriple_none_of_owner (conf : config) (u : String) (p : Proc)
    (hu : p.username = some u) (hm : matchesUser conf u p = false) :
    matchedTriple conf p = none := by
  rcases skip_or_matched conf p with hs | ⟨v, exe, name, cmdline, limit, hn, hv, hc, he, hm', hl, hx, -⟩
  · exact hs
  · have hvu : v = u := by rw [hu] at hv; exact (Option.some.inj hv).symm
    subst hvu
    rw [matchesUser_of_data conf p v exe name cmdline limit hn hu hc he hm' hl hx] at hm
    exact Bool.noConfusion hm

/-- A user none of whose observations matches is invisible to the scan:
the iterations on the processes of that user change nothing, the scan is
the scan without them, no kill is theirs and the entry is the input's. -/
theorem scan_frame (conf : config) (cnt : counts) (now : Int) (pids : List Proc) (u : String)
    (h : ∀ p ∈ pids, matchesUser conf u p = false) :
    (∀ p ∈ pids, p.username = some u → ∀ st, loopBody conf now st p = st) ∧
    scan conf cnt now (pids.filter (fun p => p.username != some u)) = scan conf cnt now pids ∧
    (∀ p ∈ (scan conf cnt now pids).kills, p.username ≠ some u) ∧
    (scan conf cnt now pids).counts u = cnt u := by
  have hv := view_scan_noMatch conf cnt now pids u h
  refine ⟨?_, ?_, ?_, congrArg (fun v => v.1) hv⟩
  · intro p hp hu st
    exact loopBody_skip conf now st p (matchedTriple_none_of_owner conf u p hu (h p hp))
  · unfold scan
    apply foldl_filter_skip
    intro p hp hk
    have hu : p.username = some u := by simpa using hk
    exact matchedTriple_none_of_owner conf u p hu (h p hp)
  · intro p hp hu
    have h2 : killsOf u (scan conf cnt now pids) = [] := congrArg (fun v => v.2.2) hv
    have : p ∈ killsOf u (scan conf cnt now pids) := (mem_killsOf u _ p).mpr ⟨hp, hu⟩
    rw [h2] at this
    exact absurd this (List.not_mem_nil p)

/-- C4: for a user `u` that is not a key of the configuration, every
iteration on a process owned by `u` leaves the whole state (ledger, flagged
set, kills, output) as it was, so the scan is the scan of the enumeration
without the processes of `u`; no process owned by `u` is killed and the
ledger entry of `u` (or its absence) is the input's. -/
theorem unconfigured_user_untouched (conf : config) (cnt : counts) (now : Int)
    (pids : List Proc) (u : String) (hc : conf u = none) :
    (∀ p ∈ pids, p.username = some u → ∀ st, loopBody conf now st p = st) ∧
    scan conf cnt now (pids.filter (fun p => p.username != some u)) = scan conf cnt now pids ∧
    (∀ p ∈ (scan conf cnt now pids).kills, p.username ≠ some u) ∧
    (scan conf cnt now pids).counts u = cnt u :=
  scan_frame conf cnt now pids u (fun p _ => matchesUser_unconfigured conf u p hc)

/-- A process of `bob`, who is not configured, running a path that is
configured for `alice`. -/
theorem unconfigured_user_untouched_witness :
    exConf "bob" = none ∧
    (∀ p ∈ [exProcOf "bob" "/usr/bin/x" 7, exProc 1], p.username = some "bob" →
      ∀ st, loopBody exConf 100 st p = st) ∧
    scan exConf (exCounts 100 2) 100
        ([exProcOf "bob" "/usr/bin/x" 7, exProc 1].filter (fun p => p.username != some "bob"))
      = scan exConf (exCounts 100 2) 100 [exProcOf "bob" "/usr/bin/x" 7, exProc 1] ∧
    (∀ p ∈ (scan exConf (exCounts 100 2) 100 [exProcOf "bob" "/usr/bin/x" 7, exProc 1]).kills,
      p.username ≠ some "bob") ∧
    (scan exConf (exCounts 100 2) 100 [exProcOf "bob" "/usr/bin/x" 7, exProc 1]).counts "bob"
      = exCounts 100 2 "bob" :=
  ⟨by decide,
    unconfigured_user_untouched exConf (exCounts 100 2) 100
      [exProcOf "bob" "/usr/bin/x" 7, exProc 1] "bob" (by decide)⟩

/-- C5: for a configured user `u` none of whose observations has an
executable path that is a member of the allowed set of `u`, every iteration
on a process owned by `u` leaves the whole state as it was, so the scan is
the scan without the processes of `u`; no process owned by `u` is killed and
the ledger entry of `u` is unchanged. -/
theorem exact_path_match_only (conf : config) (cnt : counts) (now : Int) (pids : List Proc)
    (u : String) (limit : userLimits) (hc : conf u = some limit)
    (hx : ∀ p ∈ pids, p.username = some u → ∀ e, p.exe = some e → e ∉ limit.processes) :
    (∀ p ∈ pids, p.username = some u → ∀ st, loopBody conf now st p = st) ∧
    scan conf cnt now (pids.filter (fun p => p.username != some u)) = scan conf cnt now pids ∧
    (∀ p ∈ (scan conf cnt now pids).kills, p.username ≠ some u) ∧
    (scan conf cnt now pids).counts u = cnt u := by
  apply scan_frame
  intro p hp
  cases hm : matchesUser conf u p with
  | false => rfl
  | true =>
    obtain ⟨exe, _, _, limit', _, hu, hc', he, _, _, hmem⟩ := data_of_matchesUser conf p u hm
    have hl' : limit' = limit := by rw [hc] at hc'; exact (Option.some.inj hc').symm
    subst hl'
    exact absurd hmem (hx p hp hu exe he)

/-- Processes of `alice` running a proper prefix and an extension of the
configured path `/usr/bin/x`. -/
theorem exact_path_match_only_witness :
    exConf "alice" = some { limit := 2, processes := {"/usr/bin/x"} } ∧
    (∀ p ∈ [exProcOf "alice" "/usr/bin" 1, exProcOf "alice" "/usr/bin/xy" 2],
      p.username = some "alice" → ∀ e, p.exe = some e → e ∉ ({"/usr/bin/x"} : Finset String)) ∧
    (∀ p ∈ [exProcOf "alice" "/usr/bin" 1, exProcOf "alice" "/usr/bin/xy" 2],
      p.username = some "alice" → ∀ st, loopBody exConf 100 st p = st) ∧
    scan exConf (exCounts 100 2) 100
        ([exProcOf "alice" "/usr/bin" 1, exProcOf "alice" "/usr/bin/xy" 2].filter
          (fun p => p.username != some "alice"))
      = scan exConf (exCounts 100 2) 100
          [exProcOf "alice" "/usr/bin" 1, exProcOf "alice" "/usr/bin/xy" 2] ∧
    (∀ p ∈ (scan exConf (exCounts 100 2) 100
        [exProcOf "alice" "/usr/bin" 1, exProcOf "alice" "/usr/bin/xy" 2]).kills,
      p.username ≠ some "alice") ∧
    (scan exConf (exCounts 100 2) 100
        [exProcOf "alice" "/usr/bin" 1, exProcOf "alice" "/usr/bin/xy" 2]).counts "alice"
      = exCounts 100 2 "alice" :=
  ⟨by decide, by simp [exProcOf],
    exact_path_match_only exConf (exCounts 100 2) 100
      [exProcOf "alice" "/usr/bin" 1, exProcOf "alice" "/usr/bin/xy" 2] "alice"
      { limit := 2, processes := {"/usr/bin/x"} } (by decide) (by simp [exProcOf])⟩

/-- The count after the update of an entry that holds nothing for today is 1. -/
theorem bump_count_of_stale (cnt : counts) (now : Int) (u : String)
    (hd : cnt u = none ∨ ∃ c, cnt u = some c ∧ c.Day < now) :
    (bump now (cnt.index u)).Count = 1 := by
  rcases hd with hn | ⟨c, hs, hlt⟩
  · simp only [bump, counts.index, hn]
    split_ifs <;> simp [wrapInt32]
  · simp [bump, counts.index, hs, hlt]

/-- C6: for a user `u` with limit 0 and no count recorded for today (no
ledger entry, or a stored day earlier than today), the first matching
observation of `u` makes the count 1 and that process is killed. -/
theorem zero_limit_first_match_killed (conf : config) (cnt : counts) (now : Int)
    (pids : List Proc) (u : String) (limit : userLimits) (p : Proc)
    (hc : conf u = some limit) (hl : limit.limit = 0)
    (hd : cnt u = none ∨ ∃ c, cnt u = some c ∧ c.Day < now)
    (hf : firstMatch conf u pids = some p) :
    ∃ c, (scan conf cnt now pids).counts u = some c ∧ c.Count = 1 ∧
      p ∈ (scan conf cnt now pids).kills := by
  have hv := view_scan_first conf cnt now pids u limit p hc hf
  have h1 : (scan conf cnt now pids).counts u = some (bump now (cnt.index u)) :=
    congrArg (fun v => v.1) hv
  have h2 : killsOf u (scan conf cnt now pids) =
      if (bump now (cnt.index u)).Count > limit.limit then [p] else [] :=
    congrArg (fun v => v.2.2) hv
  have hone := bump_count_of_stale cnt now u hd
  refine ⟨_, h1, hone, ?_⟩
  rw [hone, hl, if_pos (by decide)] at h2
  have : p ∈ killsOf u (scan conf cnt now pids) := by rw [h2]; exact List.mem_singleton_self p
  exact ((mem_killsOf u _ p).mp this).1

/-- A user with limit 0 and an empty ledger: the first of two matching
processes is killed. -/
theorem zero_limit_first_match_killed_witness :
    exConfZero "alice" = some { limit := 0, processes := {"/usr/bin/x"} } ∧
    (emptyCounts "alice" = none ∨ ∃ c, emptyCounts "alice" = some c ∧ c.Day < 100) ∧
    firstMatch exConfZero "alice" [exProc 1, exProc 2] = some (exProc 1) ∧
    ∃ c, (scan exConfZero emptyCounts 100 [exProc 1, exProc 2]).counts "alice" = some c ∧
      c.Count = 1 ∧ exProc 1 ∈ (scan exConfZero emptyCounts 100 [exProc 1, exProc 2]).kills :=
  ⟨by decide, Or.inl (by decide), by decide,
    zero_limit_first_match_killed exConfZero emptyCounts 100 [exProc 1, exProc 2] "alice"
      { limit := 0, processes := {"/usr/bin/x"} } (exProc 1) (by decide) rfl
      (Or.inl (by decide)) (by decide)⟩

/-- A user that is flagged stays flagged. -/
theorem flagged_loopBody (conf : config) (now : Int) (u : String) (st : ScanState) (p : Proc)
    (h : u ∈ st.flaggedUsers) : u ∈ (loopBody conf now st p).flaggedUsers := by
  have := congrArg (fun v => v.2.1) (view_loopBody_flagged conf now u st p h)
  simpa [view, h] using this

/-- A matching observation of `u` leaves `u` flagged. -/
theorem flagged_of_matches (conf : config) (now : Int) (u : String) (st : ScanState) (p : Proc)
    (hm : matchesUser conf u p = true) : u ∈ (loopBody conf now st p).flaggedUsers := by
  by_cases hf : u ∈ st.flaggedUsers
  · exact flagged_loopBody conf now u st p hf
  · obtain ⟨_, _, _, limit, _, _, hc, _⟩ := data_of_matchesUser conf p u hm
    have := congrArg (fun v => v.2.1) (view_loopBody_first conf now u limit st p hc hm hf)
    simpa [view] using this

/-- Every process killed has an owner, provided that held before the loop. -/
theorem kills_owner_foldl (conf : config) (now : Int) (pids : List Proc) :
    ∀ st : ScanState, (∀ q ∈ st.kills, ∃ v, q.username = some v) →
      ∀ q ∈ (pids.foldl (loopBody conf now) st).kills, ∃ v, q.username = some v := by
  induction pids with
  | nil => intro st h; exact h
  | cons p ps ih =>
    intro st h
    rw [List.foldl_cons]
    apply ih
    rcases skip_or_matched conf p with hs | ⟨v, exe, name, cmdline, limit, hn, hu, hc, he, hm, hl, hx, -⟩
    · rw [loopBody_skip conf now st p hs]; exact h
    · rw [loopBody_matched conf now st p v exe name cmdline limit hn hu hc he hm hl hx]
      split_ifs
      · exact h
      · intro q hq
        rcases List.mem_append.mp hq with hq | hq
        · exact h q hq
        · rw [List.mem_singleton.mp hq]; exact ⟨v, hu⟩
      · exact h

/-- C7: every process killed has an owner; for every user `u` at most one
process of `u` is killed in a scan, and a killed process of `u` is the first
matching observation of `u` in enumeration order; and the observations that
come after a matching observation of `u` add no kill of a process of `u`,
whatever the count and the limit are. -/
theorem at_most_one_kill_per_user (conf : config) (cnt : counts) (now : Int)
    (pids : List Proc) (u : String) :
    (∀ q ∈ (scan conf cnt now pids).kills, ∃ v, q.username = some v) ∧
    (killsOf u (scan conf cnt now pids)).length ≤ 1 ∧
    (∀ q ∈ (scan conf cnt now pids).kills, q.username = some u →
      firstMatch conf u pids = some q) ∧
    (∀ pre p post, pids = pre ++ p :: post → matchesUser conf u p = true →
      killsOf u (scan conf cnt now pids) = killsOf u (scan conf cnt now (pre ++ [p]))) := by
  have hshape : killsOf u (scan conf cnt now pids) = [] ∨
      ∃ p, firstMatch conf u pids = some p ∧ killsOf u (scan conf cnt now pids) = [p] := by
    cases hf : firstMatch conf u pids with
    | none =>
      left
      unfold firstMatch at hf
      rw [List.find?_eq_none] at hf
      exact congrArg (fun v => v.2.2)
        (view_scan_noMatch conf cnt now pids u (fun p hp => by simpa using hf p hp))
    | some p =>
      obtain ⟨_, _, _, limit, _, _, hc, _⟩ :=
        data_of_matchesUser conf p u (firstMatch_spec conf u pids p hf).2
      have h2 : killsOf u (scan conf cnt now pids) =
          if (bump now (cnt.index u)).Count > limit.limit then [p] else [] :=
        congrArg (fun v => v.2.2) (view_scan_first conf cnt now pids u limit p hc hf)
      by_cases hgt : (bump now (cnt.index u)).Count > limit.limit
      · right; exact ⟨p, rfl, by rw [h2, if_pos hgt]⟩
      · left; rw [h2, if_neg hgt]
  refine ⟨?_, ?_, ?_, ?_⟩
  · exact kills_owner_foldl conf now pids (initState cnt) (by simp [initState])
  · rcases hshape with h | ⟨p, -, h⟩ <;> simp [h]
  · intro q hq hu
    have hq' : q ∈ killsOf u (scan conf cnt now pids) := (mem_killsOf u _ q).mpr ⟨hq, hu⟩
    rcases hshape with h | ⟨p, hp, h⟩
    · rw [h] at hq'; exact absurd hq' (List.not_mem_nil q)
    · rw [h] at hq'; rw [List.mem_singleton.mp hq']; exact hp
  · intro pre p post hpids hm
    subst hpids
    have hsplit : scan conf cnt now (pre ++ p :: post) =
        post.foldl (loopBody conf now) (scan conf cnt now (pre ++ [p])) := by
      unfold scan
      rw [← List.foldl_append]
      simp
    have hfl : u ∈ (scan conf cnt now (pre ++ [p])).flaggedUsers := by
      unfold scan
      rw [List.foldl_append, List.foldl_cons, List.foldl_nil]
      exact flagged_of_matches conf now u _ p hm
    rw [hsplit]
    exact congrArg (fun v => v.2.2) (view_foldl_flagged conf now u post _ hfl)

/-- C8: the "matched" lines of a scan are, in enumeration order, the
(executable path, name, command line) triples of the observations that have
all fields obtained, a configured owner and an executable path in the
allowed set of the owner: one line per such observation. -/
theorem matched_notices_exact (conf : config) (cnt : counts) (now : Int) (pids : List Proc) :
    matchedNotices (scan conf cnt now pids).out = pids.filterMap (matchedTriple conf) := by
  unfold scan
  rw [matchedNotices_foldl]
  simp [initState, matchedNotices]

/-- C9, counterexample: on day -1 a user without a ledger entry and with one
matching observation gets `{day: 0, count: 1}`, not `{day: -1, count: 1}`:
the missing entry reads as the zero value `{day: 0, count: 0}`, not as
`{day: today, count: 0}`. -/
theorem missing_entry_counterexample :
    emptyCounts "alice" = none ∧
    (∃ p ∈ [exProc 1], matchesUser exConf "alice" p = true) ∧
    emptyCounts.index "alice" = { Day := 0, Count := 0 } ∧
    (scan exConf emptyCounts (-1) [exProc 1]).counts "alice" = some { Day := 0, Count := 1 } ∧
    (scan exConf emptyCounts (-1) [exProc 1]).counts "alice"
      ≠ some { Day := -1, Count := 1 } := by
  refine ⟨by decide, ⟨exProc 1, by simp, by decide⟩, by decide, by decide, by decide⟩

/-- C9, amended: a user without a ledger entry that owns at least one
matching observation starts from the zero value `{day: 0, count: 0}`; the
updated entry is `{day: today, count: 1}` when today is not negative, and
`{day: 0, count: 1}` when it is. -/
theorem missing_entry_update (conf : config) (cnt : counts) (now : Int) (pids : List Proc)
    (u : String) (hn : cnt u = none) (hm : ∃ p ∈ pids, matchesUser conf u p = true) :
    cnt.index u = { Day := 0, Count := 0 } ∧
    (0 ≤ now → (scan conf cnt now pids).counts u = some { Day := now, Count := 1 }) ∧
    (now < 0 → (scan conf cnt now pids).counts u = some { Day := 0, Count := 1 }) := by
  obtain ⟨p, hp⟩ := firstMatch_of_exists conf u pids hm
  obtain ⟨_, _, _, limit, _, _, hc, _⟩ :=
    data_of_matchesUser conf p u (firstMatch_spec conf u pids p hp).2
  have h1 : (scan conf cnt now pids).counts u = some (bump now (cnt.index u)) :=
    congrArg (fun v => v.1) (view_scan_first conf cnt now pids u limit p hc hp)
  have h0 : cnt.index u = { Day := 0, Count := 0 } := by simp [counts.index, hn]
  refine ⟨h0, ?_, ?_⟩
  · intro hnow
    rw [h1, h0]
    rcases lt_or_eq_of_le hnow with hpos | hzero
    · simp [bump, hpos]
    · subst hzero; simp [bump, wrapInt32]
  · intro hneg
    rw [h1, h0]
    have : ¬ now > 0 := by omega
    simp [bump, this, wrapInt32]

/-- An empty ledger and one matching process of `alice` on day 100. -/
theorem missing_entry_update_witness :
    emptyCounts "alice" = none ∧
    (∃ p ∈ [exProc 1], matchesUser exConf "alice" p = true) ∧
    emptyCounts.index "alice" = { Day := 0, Count := 0 } ∧
    ((0 : Int) ≤ 100 →
      (scan exConf emptyCounts 100 [exProc 1]).counts "alice" = some { Day := 100, Count := 1 }) ∧
    ((100 : Int) < 0 →
      (scan exConf emptyCounts 100 [exProc 1]).counts "alice" = some { Day := 0, Count := 1 }) :=
  ⟨by decide, ⟨exProc 1, by simp, by decide⟩,
    missing_entry_update exConf emptyCounts 100 [exProc 1] "alice" (by decide)
      ⟨exProc 1, by simp, by decide⟩⟩

/-- C10, counterexample: with the stored entry `{day: 100, count: 2147483647}`
and one matching observation on day 100, the updated count is -2147483648,
not 2147483648. -/
theorem increment_counterexample :
    (∃ p ∈ [exProc 1], matchesUser exConf "alice" p = true) ∧
    (exCounts 100 2147483647).index "alice" = { Day := 100, Count := 2147483647 } ∧
    ¬ ((100 : Int) > 100) ∧ isInt32 2147483647 ∧
    (scan exConf (exCounts 100 2147483647) 100 [exProc 1]).counts "alice"
      = some { Day := 100, Count := -2147483648 } ∧
    (scan exConf (exCounts 100 2147483647) 100 [exProc 1]).counts "alice"
      ≠ some { Day := 100, Count := 2147483647 + 1 } := by
  refine ⟨⟨exProc 1, by simp, by decide⟩, by decide, by decide, by decide, by decide, by decide⟩

/-- C10, amended: for a user with a matching observation whose stored day is
not earlier than today, the update leaves the day unchanged; the updated
count is the prior count plus 1 for every prior `int32` count below
2147483647, and is -2147483648 when the prior count is 2147483647. -/
theorem increment_same_day (conf : config) (cnt : counts) (now : Int) (pids : List Proc)
    (u : String) (hm : ∃ p ∈ pids, matchesUser conf u p = true)
    (hd : ¬ now > (cnt.index u).Day) (hr : isInt32 (cnt.index u).Count) :
    ∃ c, (scan conf cnt now pids).counts u = some c ∧ c.Day = (cnt.index u).Day ∧
      isInt32 c.Count ∧
      ((cnt.index u).Count < 2147483647 → c.Count = (cnt.index u).Count + 1) ∧
      ((cnt.index u).Count = 2147483647 → c.Count = -2147483648) := by
  obtain ⟨p, hp⟩ := firstMatch_of_exists conf u pids hm
  obtain ⟨_, _, _, limit, _, _, hc, _⟩ :=
    data_of_matchesUser conf p u (firstMatch_spec conf u pids p hp).2
  have h1 : (scan conf cnt now pids).counts u = some (bump now (cnt.index u)) :=
    congrArg (fun v => v.1) (view_scan_first conf cnt now pids u limit p hc hp)
  have hb : bump now (cnt.index u) =
      { Day := (cnt.index u).Day, Count := wrapInt32 ((cnt.index u).Count + 1) } := by
    simp [bump, hd]
  obtain ⟨hlo, hhi⟩ := hr
  refine ⟨_, h1, by rw [hb], ?_, ?_, ?_⟩
  · rw [hb]; simp only [isInt32, wrapInt32]; omega
  · intro hlt; rw [hb]; simp only [wrapInt32]; omega
  · intro heq; rw [hb]; simp only [wrapInt32]; omega

/-- The example of the specification with prior entry `{day: 100, count: 2}`
and one matching process on day 100: the count becomes 3. -/
theorem increment_same_day_witness :
    (∃ p ∈ [exProc 1], matchesUser exConf "alice" p = true) ∧
    ¬ (100 : Int) > ((exCounts 100 2).index "alice").Day ∧
    isInt32 ((exCounts 100 2).index "alice").Count ∧
    ∃ c, (scan exConf (exCounts 100 2) 100 [exProc 1]).counts "alice" = some c ∧
      c.Day = ((exCounts 100 2).index "alice").Day ∧ isInt32 c.Count ∧
      (((exCounts 100 2).index "alice").Count < 2147483647 →
        c.Count = ((exCounts 100 2).index "alice").Count + 1) ∧
      (((exCounts 100 2).index "alice").Count = 2147483647 → c.Count = -2147483648) :=
  ⟨⟨exProc 1, by simp, by decide⟩, by decide, by decide,
    increment_same_day exConf (exCounts 100 2) 100 [exProc 1] "alice"
      ⟨exProc 1, by simp, by decide⟩ (by decide) (by decide)⟩

/-! ## Failed inspections and failed terminations -/

/-- An observation with a failed inspection produces no "matched" line. -/
theorem matchedTriple_none_of_fails (conf : config) (p : Proc) (h : inspectionFails p = true) :
    matchedTriple conf p = none := by
  rcases skip_or_matched conf p with hs | ⟨v, exe, name, cmdline, limit, hn, hu, -, he, hm, hl, -, -⟩
  · exact hs
  · simp [inspectionFails, hn, hu, he, hm, hl] at h

/-- C11: a process for which an inspection fails is skipped: the iteration
on it leaves the state (ledger, flagged set, kills, output) as it was, and
the scan is the scan of the enumeration with every such observation removed. -/
theorem failed_inspection_skipped (conf : config) (cnt : counts) (now : Int)
    (pids : List Proc) :
    (∀ p st, inspectionFails p = true → loopBody conf now st p = st) ∧
    scan conf cnt now (pids.filter (fun p => !inspectionFails p)) = scan conf cnt now pids := by
  constructor
  · intro p st h
    exact loopBody_skip conf now st p (matchedTriple_none_of_fails conf p h)
  · unfold scan
    apply foldl_filter_skip
    intro p _ hk
    exact matchedTriple_none_of_fails conf p (by simpa using hk)

/-- One iteration does not look at the result of `proc.Kill()`. -/
theorem eraseKill_loopBody (conf : config) (now : Int) (st : ScanState) (p : Proc) :
    (loopBody conf now st p).eraseKill =
      loopBody conf now st.eraseKill (p.withKillErr false) := by
  rcases skip_or_matched conf p with hs | ⟨v, exe, name, cmdline, limit, hn, hu, hc, he, hm, hl, hx, -⟩
  · have hs' : matchedTriple conf (p.withKillErr false) = none := hs
    rw [loopBody_skip conf now st p hs, loopBody_skip conf now _ _ hs']
  · rw [loopBody_matched conf now st p v exe name cmdline limit hn hu hc he hm hl hx,
      loopBody_matched conf now st.eraseKill (p.withKillErr false) v exe name cmdline limit
        hn hu hc he hm hl hx]
    simp only [ScanState.eraseKill]
    split_ifs <;> simp

/-- The loop does not look at the results of `proc.Kill()`. -/
theorem eraseKill_foldl (conf : config) (now : Int) (pids : List Proc) :
    ∀ st : ScanState, (pids.foldl (loopBody conf now) st).eraseKill =
      (pids.map (fun p => p.withKillErr false)).foldl (loopBody conf now) st.eraseKill := by
  induction pids with
  | nil => intro st; rfl
  | cons p ps ih =>
    intro st
    rw [List.map_cons, List.foldl_cons, List.foldl_cons, ih, eraseKill_loopBody]

/-- Two scans that differ only in the results of `proc.Kill()` end in the
same state, up to these results. -/
theorem eraseKill_scan (conf : config) (cnt : counts) (now : Int) (pids pids' : List Proc)
    (h : sameButKill pids pids') :
    (scan conf cnt now pids).eraseKill = (scan conf cnt now pids').eraseKill := by
  unfold scan
  rw [eraseKill_foldl, eraseKill_foldl]
  unfold sameButKill at h
  rw [h]

/-- C12: two scans that differ only in whether the termination requests
succeed or fail produce the same updated ledger, the same flagged users, the
same output and, up to the result of the request, the same sequence of
termination requests. -/
theorem kill_result_irrelevant (conf : config) (cnt : counts) (now : Int)
    (pids pids' : List Proc) (h : sameButKill pids pids') :
    (scan conf cnt now pids).counts = (scan conf cnt now pids').counts ∧
    (scan conf cnt now pids).flaggedUsers = (scan conf cnt now pids').flaggedUsers ∧
    (scan conf cnt now pids).out = (scan conf cnt now pids').out ∧
    (scan conf cnt now pids).kills.map (fun p => p.withKillErr false) =
      (scan conf cnt now pids').kills.map (fun p => p.withKillErr false) := by
  have he := eraseKill_scan conf cnt now pids pids' h
  exact ⟨congrArg (fun st => st.counts) he, congrArg (fun st => st.flaggedUsers) he,
    congrArg (fun st => st.out) he, congrArg (fun st => st.kills) he⟩

/-- Two processes of `alice` on a day on which her count exceeds the limit,
the termination of the first failing in one run and succeeding in the other. -/
theorem kill_result_irrelevant_witness :
    sameButKill [(exProc 1).withKillErr true, exProc 2] [exProc 1, exProc 2] ∧
    (scan exConf (exCounts 100 2) 100 [(exProc 1).withKillErr true, exProc 2]).counts =
      (scan exConf (exCounts 100 2) 100 [exProc 1, exProc 2]).counts ∧
    (scan exConf (exCounts 100 2) 100 [(exProc 1).withKillErr true, exProc 2]).flaggedUsers =
      (scan exConf (exCounts 100 2) 100 [exProc 1, exProc 2]).flaggedUsers ∧
    (scan exConf (exCounts 100 2) 100 [(exProc 1).withKillErr true, exProc 2]).out =
      (scan exConf (exCounts 100 2) 100 [exProc 1, exProc 2]).out ∧
    (scan exConf (exCounts 100 2) 100 [(exProc 1).withKillErr true, exProc 2]).kills.map
        (fun p => p.withKillErr false) =
      (scan exConf (exCounts 100 2) 100 [exProc 1, exProc 2]).kills.map
        (fun p => p.withKillErr false) :=
  ⟨rfl, kill_result_irrelevant exConf (exCounts 100 2) 100
    [(exProc 1).withKillErr true, exProc 2] [exProc 1, exProc 2] rfl⟩

/-- One iteration prints one "killed" line per call of `proc.Kill()`. -/
theorem killedNotices_loopBody (conf : config) (now : Int) (st : ScanState) (p : Proc)
    (h : killedNotices st.out = st.kills.filterMap (fun q => q.exe)) :
    killedNotices (loopBody conf now st p).out =
      (loopBody conf now st p).kills.filterMap (fun q => q.exe) := by
  rcases skip_or_matched conf p with hs | ⟨v, exe, name, cmdline, limit, hn, hu, hc, he, hm, hl, hx, -⟩
  · rw [loopBody_skip conf now st p hs]; exact h
  · rw [loopBody_matched conf now st p v exe name cmdline limit hn hu hc he hm hl hx]
    unfold killedNotices at h ⊢
    split_ifs <;> simp [List.filterMap_append, h, he]

/-- The loop prints one "killed" line per call of `proc.Kill()`. -/
theorem killedNotices_foldl (conf : config) (now : Int) (pids : List Proc) :
    ∀ st : ScanState, killedNotices st.out = st.kills.filterMap (fun q => q.exe) →
      killedNotices (pids.foldl (loopBody conf now) st).out =
        (pids.foldl (loopBody conf now) st).kills.filterMap (fun q => q.exe) := by
  induction pids with
  | nil => intro st h; exact h
  | cons p ps ih =>
    intro st h
    rw [List.foldl_cons]
    exact ih _ (killedNotices_loopBody conf now st p h)

/-- C13, counterexample: with a count over the limit and a termination
request that fails, the request is made and the output is the output of the
run in which the request succeeds: the matched line and the "killed" line. -/
theorem kill_failure_report_counterexample :
    ((exProc 1).withKillErr true).killErr = true ∧
    (scan exConf (exCounts 100 2) 100 [(exProc 1).withKillErr true]).kills
      = [(exProc 1).withKillErr true] ∧
    (scan exConf (exCounts 100 2) 100 [(exProc 1).withKillErr true]).out
      = [Notice.matched "/usr/bin/x" "x" "/usr/bin/x -v", Notice.killed "/usr/bin/x"] ∧
    ¬ ((scan exConf (exCounts 100 2) 100 [(exProc 1).withKillErr true]).out
      ≠ (scan exConf (exCounts 100 2) 100 [exProc 1]).out) := by
  refine ⟨by decide, by decide, by decide, by decide⟩

/-- C13, amended: a termination failure is not reported. Two scans that
differ only in whether the termination requests succeed or fail print the
same lines, and the "killed" lines of a scan are the executable paths of the
processes on which termination was requested, in order, one for each
request whatever its result. -/
theorem kill_failure_not_reported (conf : config) (cnt : counts) (now : Int)
    (pids pids' : List Proc) (h : sameButKill pids pids') :
    (scan conf cnt now pids).out = (scan conf cnt now pids').out ∧
    killedNotices (scan conf cnt now pids).out =
      (scan conf cnt now pids).kills.filterMap (fun q => q.exe) := by
  constructor
  · exact congrArg (fun st => st.out) (eraseKill_scan conf cnt now pids pids' h)
  · exact killedNotices_foldl conf now pids (initState cnt) (by simp [initState, killedNotices])

/-- A failing termination request for a process of `alice` over her limit. -/
theorem kill_failure_not_reported_witness :
    sameButKill [(exProc 1).withKillErr true] [exProc 1] ∧
    (scan exConf (exCounts 100 2) 100 [(exProc 1).withKillErr true]).out =
      (scan exConf (exCounts 100 2) 100 [exProc 1]).out ∧
    killedNotices (scan exConf (exCounts 100 2) 100 [(exProc 1).withKillErr true]).out =
      (scan exConf (exCounts 100 2) 100 [(exProc 1).withKillErr true]).kills.filterMap
        (fun q => q.exe) :=
  ⟨rfl, kill_failure_not_reported exConf (exCounts 100 2) 100
    [(exProc 1).withKillErr true] [exProc 1] rfl⟩

/-! ## The program and its loaders -/

/-- The function `readConf` returns a configuration or an error, not both and not neither. -/
theorem readConf_cases (unmarshal : String → Option (List (String × userLimitsCfg)))
    (fs : String → OpenResult) (confFile : String) :
    (∃ conf, readConf unmarshal fs confFile = (some conf, none)) ∨
    (∃ e, readConf unmarshal fs confFile = (none, some e)) := by
  unfold readConf
  cases fs confFile with
  | errNotExist => right; exact ⟨_, rfl⟩
  | errOther => right; exact ⟨_, rfl⟩
  | file r =>
    cases r with
    | none => right; exact ⟨_, rfl⟩
    | some buffer =>
      dsimp only
      cases unmarshal buffer with
      | none => right; exact ⟨_, rfl⟩
      | some fileConf => left; exact ⟨_, rfl⟩

/-- The function `readCounts` returns a ledger or an error, not both and not neither. -/
theorem readCounts_cases (unmarshal : String → Option (Option counts))
    (fs : String → OpenResult) (countFile : String) :
    (∃ cnt, readCounts unmarshal fs countFile = (some cnt, none)) ∨
    (∃ e, readCounts unmarshal fs countFile = (none, some e)) := by
  unfold readCounts
  cases fs countFile with
  | errNotExist => left; exact ⟨_, rfl⟩
  | errOther => right; exact ⟨_, rfl⟩
  | file r =>
    cases r with
    | none => right; exact ⟨_, rfl⟩
    | some buffer =>
      dsimp only
      cases unmarshal buffer with
      | none => right; exact ⟨_, rfl⟩
      | some m =>
        cases m with
        | none => left; exact ⟨_, rfl⟩
        | some appCounts => left; exact ⟨_, rfl⟩

/-- C14: if the process enumeration, the configuration load or the counters
load fails, `main` makes no call that can change the counters resource (so
its content is what it was, whatever these calls do to a content) and
requests no termination; in every other case it makes exactly one call of
`os.Create` on the counters resource and, when that succeeds, one `Encode`
of the updated ledger of the scan, changed or not. -/
theorem main_persistence (env : Env) (confFile countFile : String) :
    ((env.pids = none ∨ (readConf env.unmarshalConf env.fs confFile).2 ≠ none ∨
        (readCounts env.unmarshalCounts env.fs countFile).2 ≠ none) →
      (main env confFile countFile).fileOps = [] ∧ (main env confFile countFile).kills = [] ∧
      ∀ (α : Type) (step : α → CountsFileOp → α) (content : α),
        (main env confFile countFile).fileOps.foldl step content = content) ∧
    (∀ pids, env.pids = some pids → (readConf env.unmarshalConf env.fs confFile).2 = none →
      (readCounts env.unmarshalCounts env.fs countFile).2 = none →
      ∃ conf cnt, (readConf env.unmarshalConf env.fs confFile).1 = some conf ∧
        (readCounts env.unmarshalCounts env.fs countFile).1 = some cnt ∧
        (main env confFile countFile).kills =
          (scan conf cnt (dayIndex env.sinceEpoch) pids).kills ∧
        (main env confFile countFile).fileOps =
          CountsFileOp.create env.createErr ::
            (if env.createErr then []
             else [CountsFileOp.encode (scan conf cnt (dayIndex env.sinceEpoch) pids).counts])) := by
  constructor
  · intro h
    have hops : (main env confFile countFile).fileOps = [] ∧
        (main env confFile countFile).kills = [] := by
      unfold main
      cases hp : env.pids with
      | none => exact ⟨rfl, rfl⟩
      | some pids =>
        rcases readConf_cases env.unmarshalConf env.fs confFile with ⟨conf, hc⟩ | ⟨e, hc⟩
        · rcases readCounts_cases env.unmarshalCounts env.fs countFile with ⟨cnt, hl⟩ | ⟨e, hl⟩
          · rcases h with h | h | h
            · rw [hp] at h; exact Option.noConfusion h
            · rw [hc] at h; exact absurd rfl h
            · rw [hl] at h; exact absurd rfl h
          · simp [hc, hl]
        · simp [hc]
    refine ⟨hops.1, hops.2, ?_⟩
    intro α step content
    rw [hops.1]
    rfl
  · intro pids hp hc hl
    rcases readConf_cases env.unmarshalConf env.fs confFile with ⟨conf, hc'⟩ | ⟨e, hc'⟩
    · rcases readCounts_cases env.unmarshalCounts env.fs countFile with ⟨cnt, hl'⟩ | ⟨e, hl'⟩
      · refine ⟨conf, cnt, by rw [hc'], by rw [hl'], ?_, ?_⟩
        · unfold main
          simp only [hp, hc', hl']
          cases env.createErr <;> simp
        · unfold main
          simp only [hp, hc', hl']
          cases env.createErr <;> simp
      · rw [hl'] at hl; exact Option.noConfusion hl
    · rw [hc'] at hc; exact Option.noConfusion hc

/-- C15: when `os.Open` of the counters path answers that nothing exists
there, `readCounts` returns a non-nil ledger without any entry and no error;
when `os.Open` fails for another reason, it returns a nil ledger and an error. -/
theorem readCounts_absent (unmarshal : String → Option (Option counts))
    (fs : String → OpenResult) (countFile : String) :
    (fs countFile = OpenResult.errNotExist →
      ∃ cnt, readCounts unmarshal fs countFile = (some cnt, none) ∧ ∀ u, cnt u = none) ∧
    (fs countFile = OpenResult.errOther →
      ∃ e, readCounts unmarshal fs countFile = (none, some e)) := by
  constructor
  · intro h
    exact ⟨fun _ => none, by simp [readCounts, h], fun _ => rfl⟩
  · intro h
    exact ⟨LoadErr.openErr, by simp [readCounts, h]⟩

/-- Putting the paths of a list one by one into a set adds the members of the list. -/
theorem foldl_insert_eq (l : List String) :
    ∀ s : Finset String,
      l.foldl (fun processes name => insert name processes) s = s ∪ l.toFinset := by
  induction l with
  | nil => intro s; simp
  | cons a l ih =>
    intro s
    rw [List.foldl_cons, ih]
    ext x
    simp only [Finset.mem_union, Finset.mem_insert, List.toFinset_cons]
    tauto

/-- The allowed set of a converted user holds the paths of `procs`, no other. -/
theorem mem_convertUser (value : userLimitsCfg) (path : String) :
    path ∈ (convertUser value).processes ↔ path ∈ value.Processes := by
  simp [convertUser, foldl_insert_eq]

/-- Users with the same limit and the same paths convert to the same limits. -/
theorem convertUser_congr (a b : userLimitsCfg) (hl : a.Limit = b.Limit)
    (hp : ∀ path, path ∈ a.Processes ↔ path ∈ b.Processes) :
    convertUser a = convertUser b := by
  have hs : (convertUser a).processes = (convertUser b).processes := by
    ext x
    rw [mem_convertUser, mem_convertUser, hp]
  have hlim : (convertUser a).limit = (convertUser b).limit := hl
  cases ha : convertUser a
  cases hb : convertUser b
  simp only [ha, hb] at hs hlim
  rw [hs, hlim]

/-- Entries with the same user, limit and paths make the same iteration. -/
theorem convertStep_congr (conf : config) (a b : String × userLimitsCfg) (hk : a.1 = b.1)
    (hl : a.2.Limit = b.2.Limit) (hp : ∀ path, path ∈ a.2.Processes ↔ path ∈ b.2.Processes) :
    convertStep conf a = convertStep conf b := by
  unfold convertStep
  rw [hk, convertUser_congr _ _ hl hp]

/-- The conversion loop leaves alone the users that are not keys of the decoded map. -/
theorem foldl_update_not_mem (fileConf : List (String × userLimitsCfg)) :
    ∀ (conf : config) (u : String), u ∉ fileConf.map Prod.fst →
      fileConf.foldl convertStep conf u = conf u := by
  induction fileConf with
  | nil => intro conf u _; rfl
  | cons kv rest ih =>
    intro conf u hu
    simp only [List.map_cons, List.mem_cons, not_or] at hu
    rw [List.foldl_cons, ih _ u hu.2]
    exact Function.update_noteq hu.1 _ _

/-- The conversion loop gives every key of the decoded map its converted value. -/
theorem foldl_update_mem (fileConf : List (String × userLimitsCfg)) :
    ∀ (conf : config) (u : String) (value : userLimitsCfg),
      (fileConf.map Prod.fst).Nodup → (u, value) ∈ fileConf →
      fileConf.foldl convertStep conf u = some (convertUser value) := by
  induction fileConf with
  | nil => intro conf u value _ h; exact absurd h (List.not_mem_nil _)
  | cons kv rest ih =>
    intro conf u value hk h
    rw [List.map_cons, List.nodup_cons] at hk
    rw [List.foldl_cons]
    rcases List.mem_cons.mp h with heq | hrest
    · subst heq
      rw [foldl_update_not_mem rest _ u hk.1]
      simp [convertStep]
    · exact ih _ u value hk.2 hrest

/-- The conversion loop does not see repeated or reordered paths. -/
theorem foldl_update_sameProcs (fileConf fileConf' : List (String × userLimitsCfg))
    (h : sameProcsSets fileConf fileConf') :
    ∀ conf : config,
      fileConf.foldl convertStep conf = fileConf'.foldl convertStep conf := by
  unfold sameProcsSets at h
  induction h with
  | nil => intro conf; rfl
  | cons hab _ ih =>
    intro conf
    rw [List.foldl_cons, List.foldl_cons, ← ih, convertStep_congr conf _ _ hab.1 hab.2.1 hab.2.2]

/-- C16: for a decoded configuration, given by its entries with distinct
user names, the converted configuration has for every user of an entry the
limit of the entry and an allowed set whose members are exactly the paths of
`procs`, and no other user; visiting the entries in another order, or
repeating or reordering the paths of `procs`, gives an equal configuration. -/
theorem convertConf_set (fileConf : List (String × userLimitsCfg))
    (hk : (fileConf.map Prod.fst).Nodup) :
    (∀ u value, (u, value) ∈ fileConf →
      ∃ l, convertConf fileConf u = some l ∧ l.limit = value.Limit ∧
        ∀ path, path ∈ l.processes ↔ path ∈ value.Processes) ∧
    (∀ u, u ∉ fileConf.map Prod.fst → convertConf fileConf u = none) ∧
    (∀ fileConf', fileConf.Perm fileConf' → convertConf fileConf' = convertConf fileConf) ∧
    (∀ fileConf', sameProcsSets fileConf fileConf' →
      convertConf fileConf' = convertConf fileConf) := by
  refine ⟨?_, ?_, ?_, ?_⟩
  · intro u value h
    exact ⟨convertUser value, foldl_update_mem fileConf _ u value hk h, rfl,
      mem_convertUser value⟩
  · intro u hu
    exact foldl_update_not_mem fileConf _ u hu
  · intro fileConf' hperm
    have hk' : (fileConf'.map Prod.fst).Nodup := (hperm.map Prod.fst).nodup_iff.mp hk
    funext u
    by_cases hu : u ∈ fileConf.map Prod.fst
    · obtain ⟨kv, hkv, rfl⟩ := List.mem_map.mp hu
      have h1 := foldl_update_mem fileConf (fun _ => none) kv.1 kv.2 hk hkv
      have h2 := foldl_update_mem fileConf' (fun _ => none) kv.1 kv.2 hk'
        (hperm.mem_iff.mp hkv)
      unfold convertConf
      rw [h1, h2]
    · have hu' : u ∉ fileConf'.map Prod.fst := fun h => hu ((hperm.map Prod.fst).mem_iff.mpr h)
      unfold convertConf
      rw [foldl_update_not_mem fileConf _ u hu, foldl_update_not_mem fileConf' _ u hu']
  · intro fileConf' h
    exact (foldl_update_sameProcs fileConf fileConf' h _).symm

/-- Truncated division by the hour and then by 24, for a duration that is not negative. -/
theorem tdiv_hour_day_of_nonneg (e : Int) (he : 0 ≤ e) :
    Int.tdiv (Int.tdiv e hour) 24 = e / 86400000000000 ∧
    Int.tdiv e 86400000000000 = e / 86400000000000 := by
  have h1 : Int.tdiv e hour = e / 3600000000000 := Int.tdiv_eq_ediv he (by decide)
  have h2 : 0 ≤ e / 3600000000000 := by omega
  have h3 : Int.tdiv (e / 3600000000000) 24 = e / 3600000000000 / 24 :=
    Int.tdiv_eq_ediv h2 (by decide)
  have h4 : Int.tdiv e 86400000000000 = e / 86400000000000 :=
    Int.tdiv_eq_ediv he (by decide)
  rw [h1, h3, h4]
  constructor
  · omega
  · rfl

/-- C17: for every duration `d` since the epoch in the range of `int64`, in
nanoseconds, the quotient `d / hour / 24` is in the range of `int32`, so the
conversion does not wrap, and the day index is `d` divided by
86,400,000,000,000 truncated toward zero. -/
theorem dayIndex_truncated (d : Int) (h : isInt64 d) :
    isInt32 (Int.tdiv (Int.tdiv d hour) 24) ∧
    dayIndex d = Int.tdiv (Int.tdiv d hour) 24 ∧
    dayIndex d = Int.tdiv d 86400000000000 := by
  obtain ⟨hlo, hhi⟩ := h
  have key : Int.tdiv (Int.tdiv d hour) 24 = Int.tdiv d 86400000000000 ∧
      isInt32 (Int.tdiv d 86400000000000) := by
    rcases le_or_lt 0 d with hd | hd
    · obtain ⟨h1, h2⟩ := tdiv_hour_day_of_nonneg d hd
      rw [h1, h2]
      refine ⟨rfl, ?_⟩
      unfold isInt32
      omega
    · obtain ⟨e, rfl⟩ : ∃ e, d = -e := ⟨-d, by omega⟩
      obtain ⟨h1, h2⟩ := tdiv_hour_day_of_nonneg e (by omega)
      rw [Int.neg_tdiv, Int.neg_tdiv, Int.neg_tdiv, h1, h2]
      refine ⟨rfl, ?_⟩
      unfold isInt32
      omega
  obtain ⟨hk1, hk2⟩ := key
  have hfit : isInt32 (Int.tdiv (Int.tdiv d hour) 24) := by rw [hk1]; exact hk2
  have hw : dayIndex d = Int.tdiv (Int.tdiv d hour) 24 := by
    unfold dayIndex wrapInt32
    obtain ⟨a, b⟩ := hfit
    omega
  exact ⟨hfit, hw, hw.trans hk1⟩

/-- A decoded configuration with one user and a repeated path. -/
theorem convertConf_set_witness :
    (exFileConf.map Prod.fst).Nodup ∧
    (∀ u value, (u, value) ∈ exFileConf →
      ∃ l, convertConf exFileConf u = some l ∧ l.limit = value.Limit ∧
        ∀ path, path ∈ l.processes ↔ path ∈ value.Processes) ∧
    (∀ u, u ∉ exFileConf.map Prod.fst → convertConf exFileConf u = none) ∧
    (∀ fileConf', exFileConf.Perm fileConf' → convertConf fileConf' = convertConf exFileConf) ∧
    (∀ fileConf', sameProcsSets exFileConf fileConf' →
      convertConf fileConf' = convertConf exFileConf) :=
  ⟨by decide, convertConf_set exFileConf (by decide)⟩

/-- The duration 1,700,000,000,000,000,000 ns since the epoch, in November 2023. -/
theorem dayIndex_truncated_witness :
    isInt64 1700000000000000000 ∧
    isInt32 (Int.tdiv (Int.tdiv 1700000000000000000 hour) 24) ∧
    dayIndex 1700000000000000000 = Int.tdiv (Int.tdiv 1700000000000000000 hour) 24 ∧
    dayIndex 1700000000000000000 = Int.tdiv 1700000000000000000 86400000000000 :=
  ⟨by decide, dayIndex_truncated 1700000000000000000 (by decide)⟩

/-! ## The ledger as a whole -/

/-- The scan, seen from any user: with a matching observation the entry is
updated once and a process of the user is killed exactly when the updated
count exceeds the limit; without one the entry is the input's and no process
of the user is killed. -/
theorem scan_summary (conf : config) (cnt : counts) (now : Int) (pids : List Proc)
    (u : String) :
    ((∃ p ∈ pids, matchesUser conf u p = true) →
      ∃ limit, conf u = some limit ∧
        (scan conf cnt now pids).counts u = some (bump now (cnt.index u)) ∧
        ((∃ p ∈ (scan conf cnt now pids).kills, p.username = some u) ↔
          (bump now (cnt.index u)).Count > limit.limit)) ∧
    ((¬ ∃ p ∈ pids, matchesUser conf u p = true) →
      (scan conf cnt now pids).counts u = cnt u ∧
        ¬ ∃ p ∈ (scan conf cnt now pids).kills, p.username = some u) := by
  constructor
  · intro hm
    obtain ⟨p, hp⟩ := firstMatch_of_exists conf u pids hm
    obtain ⟨_, _, _, limit, _, _, hc, _⟩ :=
      data_of_matchesUser conf p u (firstMatch_spec conf u pids p hp).2
    have hv := view_scan_first conf cnt now pids u limit p hc hp
    have h2 : killsOf u (scan conf cnt now pids) =
        if (bump now (cnt.index u)).Count > limit.limit then [p] else [] :=
      congrArg (fun v => v.2.2) hv
    refine ⟨limit, hc, congrArg (fun v => v.1) hv, ?_, ?_⟩
    · rintro ⟨q, hq, hu⟩
      have hq' : q ∈ killsOf u (scan conf cnt now pids) := (mem_killsOf u _ q).mpr ⟨hq, hu⟩
      rw [h2] at hq'
      by_contra hn
      rw [if_neg hn] at hq'
      exact absurd hq' (List.not_mem_nil q)
    · intro hgt
      have hp' : p ∈ killsOf u (scan conf cnt now pids) := by
        rw [h2, if_pos hgt]; exact List.mem_singleton_self p
      obtain ⟨hk, hu⟩ := (mem_killsOf u _ p).mp hp'
      exact ⟨p, hk, hu⟩
  · intro hn
    have hno : ∀ p ∈ pids, matchesUser conf u p = false := by
      intro p hp
      cases hm : matchesUser conf u p with
      | false => rfl
      | true => exact absurd ⟨p, hp, hm⟩ hn
    have hv := view_scan_noMatch conf cnt now pids u hno
    have h2 : killsOf u (scan conf cnt now pids) = [] := congrArg (fun v => v.2.2) hv
    refine ⟨congrArg (fun v => v.1) hv, ?_⟩
    rintro ⟨q, hq, hu⟩
    have hq' : q ∈ killsOf u (scan conf cnt now pids) := (mem_killsOf u _ q).mpr ⟨hq, hu⟩
    rw [h2] at hq'
    exact absurd hq' (List.not_mem_nil q)

/-- C18: a scan destroys no ledger entry and creates one only on a matching
observation: a user with an entry in the input ledger has one in the updated
ledger; the entry of a user without a matching observation is the input's;
and a user without an entry in the input ledger has one in the updated
ledger if and only if the user owns at least one matching observation. -/
theorem ledger_entries_preserved (conf : config) (cnt : counts) (now : Int)
    (pids : List Proc) (u : String) :
    ((cnt u).isSome = true → ((scan conf cnt now pids).counts u).isSome = true) ∧
    ((∀ p ∈ pids, matchesUser conf u p = false) → (scan conf cnt now pids).counts u = cnt u) ∧
    (cnt u = none → (((scan conf cnt now pids).counts u).isSome = true ↔
      ∃ p ∈ pids, matchesUser conf u p = true)) := by
  obtain ⟨hyes, hno⟩ := scan_summary conf cnt now pids u
  refine ⟨?_, ?_, ?_⟩
  · intro hs
    by_cases hm : ∃ p ∈ pids, matchesUser conf u p = true
    · obtain ⟨_, _, hc, _⟩ := hyes hm
      rw [hc]; rfl
    · rw [(hno hm).1]; exact hs
  · intro h
    apply (hno _).1
    rintro ⟨p, hp, hm⟩
    rw [h p hp] at hm
    exact Bool.noConfusion hm
  · intro hnone
    constructor
    · intro hs
      by_contra hm
      rw [(hno hm).1, hnone] at hs
      exact Bool.noConfusion hs
    · intro hm
      obtain ⟨_, _, hc, _⟩ := hyes hm
      rw [hc]; rfl

/-- C19: for two enumerations that are permutations of each other, the scan
yields the same updated ledger, a termination is requested for a process of
a user in the one if and only if it is in the other, and the "matched" lines
are the same as multisets. The scan is a function of its inputs. -/
theorem order_insensitive (conf : config) (cnt : counts) (now : Int)
    (pids pids' : List Proc) (h : pids.Perm pids') :
    (scan conf cnt now pids).counts = (scan conf cnt now pids').counts ∧
    (∀ u, (∃ p ∈ (scan conf cnt now pids).kills, p.username = some u) ↔
      (∃ p ∈ (scan conf cnt now pids').kills, p.username = some u)) ∧
    Multiset.ofList (matchedNotices (scan conf cnt now pids).out) =
      Multiset.ofList (matchedNotices (scan conf cnt now pids').out) := by
  have hiff : ∀ u, (∃ p ∈ pids, matchesUser conf u p = true) ↔
      (∃ p ∈ pids', matchesUser conf u p = true) := by
    intro u
    constructor
    · rintro ⟨p, hp, hm⟩; exact ⟨p, h.mem_iff.mp hp, hm⟩
    · rintro ⟨p, hp, hm⟩; exact ⟨p, h.mem_iff.mpr hp, hm⟩
  refine ⟨?_, ?_, ?_⟩
  · funext u
    obtain ⟨hyes, hno⟩ := scan_summary conf cnt now pids u
    obtain ⟨hyes', hno'⟩ := scan_summary conf cnt now pids' u
    by_cases hm : ∃ p ∈ pids, matchesUser conf u p = true
    · obtain ⟨_, _, hc, _⟩ := hyes hm
      obtain ⟨_, _, hc', _⟩ := hyes' ((hiff u).mp hm)
      rw [hc, hc']
    · rw [(hno hm).1, (hno' (fun h' => hm ((hiff u).mpr h'))).1]
  · intro u
    obtain ⟨hyes, hno⟩ := scan_summary conf cnt now pids u
    obtain ⟨hyes', hno'⟩ := scan_summary conf cnt now pids' u
    by_cases hm : ∃ p ∈ pids, matchesUser conf u p = true
    · obtain ⟨limit, hl, _, hk⟩ := hyes hm
      obtain ⟨limit', hl', _, hk'⟩ := hyes' ((hiff u).mp hm)
      have : limit' = limit := by rw [hl] at hl'; exact (Option.some.inj hl').symm
      subst this
      rw [hk, hk']
    · constructor
      · intro hk; exact absurd hk (hno hm).2
      · intro hk; exact absurd hk (hno' (fun h' => hm ((hiff u).mpr h'))).2
  · rw [matched_notices_all conf cnt now pids, matched_notices_all conf cnt now pids']
    exact Multiset.coe_eq_coe.mpr (h.filterMap _)

/-- A process of `bob` and two of `alice`, over her limit, enumerated in two orders. -/
theorem order_insensitive_witness :
    [exProcOf "bob" "/usr/bin/x" 7, exProc 1, exProc 2].Perm
      [exProc 2, exProcOf "bob" "/usr/bin/x" 7, exProc 1] ∧
    (scan exConf (exCounts 100 2) 100 [exProcOf "bob" "/usr/bin/x" 7, exProc 1, exProc 2]).counts =
      (scan exConf (exCounts 100 2) 100
        [exProc 2, exProcOf "bob" "/usr/bin/x" 7, exProc 1]).counts ∧
    (∀ u, (∃ p ∈ (scan exConf (exCounts 100 2) 100
          [exProcOf "bob" "/usr/bin/x" 7, exProc 1, exProc 2]).kills, p.username = some u) ↔
      (∃ p ∈ (scan exConf (exCounts 100 2) 100
          [exProc 2, exProcOf "bob" "/usr/bin/x" 7, exProc 1]).kills, p.username = some u)) ∧
    Multiset.ofList (matchedNotices (scan exConf (exCounts 100 2) 100
        [exProcOf "bob" "/usr/bin/x" 7, exProc 1, exProc 2]).out) =
      Multiset.ofList (matchedNotices (scan exConf (exCounts 100 2) 100
        [exProc 2, exProcOf "bob" "/usr/bin/x" 7, exProc 1]).out) :=
  ⟨by decide, order_insensitive exConf (exCounts 100 2) 100
    [exProcOf "bob" "/usr/bin/x" 7, exProc 1, exProc 2]
    [exProc 2, exProcOf "bob" "/usr/bin/x" 7, exProc 1] (by decide)⟩

/-- C20: the stored day never moves backward. For a user with an entry in
the input ledger the updated entry has a day that is not earlier; when the
user owns a matching observation that day is the later of the stored day and
today, so when today is earlier than the stored day the stored day is kept
and the count is incremented (as an `int32`) against it. -/
theorem day_never_decreases (conf : config) (cnt : counts) (now : Int) (pids : List Proc)
    (u : String) (c : stats) (hs : cnt u = some c) :
    ∃ c', (scan conf cnt now pids).counts u = some c' ∧ c.Day ≤ c'.Day ∧
      ((∃ p ∈ pids, matchesUser conf u p = true) →
        c'.Day = max c.Day now ∧
        (now < c.Day → c'.Day = c.Day ∧ c'.Count = wrapInt32 (c.Count + 1))) := by
  obtain ⟨hyes, hno⟩ := scan_summary conf cnt now pids u
  have hidx : cnt.index u = c := by simp [counts.index, hs]
  by_cases hm : ∃ p ∈ pids, matchesUser conf u p = true
  · obtain ⟨_, _, hc, _⟩ := hyes hm
    rw [hidx] at hc
    refine ⟨bump now c, hc, ?_, fun _ => ⟨?_, ?_⟩⟩
    · unfold bump
      split_ifs with hgt
      · exact le_of_lt hgt
      · exact le_refl _
    · unfold bump
      split_ifs with hgt
      · exact (max_eq_right (le_of_lt hgt)).symm
      · exact (max_eq_left (not_lt.mp hgt)).symm
    · intro hlt
      have hgt : ¬ now > c.Day := not_lt.mpr (le_of_lt hlt)
      simp [bump, hgt]
  · exact ⟨c, by rw [(hno hm).1, hs], le_refl _, fun h => absurd h hm⟩

/-- The clock moved back: the stored entry is `{day: 100, count: 2}` and
today is day 50. -/
theorem day_never_decreases_witness :
    exCounts 100 2 "alice" = some { Day := 100, Count := 2 } ∧
    ∃ c', (scan exConf (exCounts 100 2) 50 [exProc 1]).counts "alice" = some c' ∧
      (100 : Int) ≤ c'.Day ∧
      ((∃ p ∈ [exProc 1], matchesUser exConf "alice" p = true) →
        c'.Day = max (100 : Int) 50 ∧
        ((50 : Int) < 100 → c'.Day = 100 ∧ c'.Count = wrapInt32 (2 + 1))) :=
  ⟨by decide, day_never_decreases exConf (exCounts 100 2) 50 [exProc 1] "alice"
    { Day := 100, Count := 2 } (by decide)⟩

end Proctime
